import Mathlib

/-!
Verification of the `Pass` record of `lazurite` (file
`src/lazurite/material/shader_pass/shader_pass.py`): its binary codec,
tree codec, and semantic operations (sort, merge, flag-definition query).

Strings are modelled as lists of bytes (`Str := List Nat`); the binary
wire is a list of bytes consumed front-to-back, mirroring the Python
`BytesIO` cursor.  Fallible operations return `Option`.
-/

/-- A string, modelled as its UTF-8 byte sequence. -/
abbrev Str := List Nat

/-- A byte stream: every element is an actual byte. -/
def BytesOk (bs : List Nat) : Prop := ∀ b ∈ bs, b < 256

instance (bs : List Nat) : Decidable (BytesOk bs) := by
  unfold BytesOk; infer_instance

namespace util

/-- Modelled from the spec: `util.write_ushort` emits a 16-bit unsigned
integer, little-endian (`lazurite.util` is not part of the given source;
the spec fixes the layout in section 6). -/
def write_ushort (n : Nat) : List Nat := [n % 256, n / 256 % 256]

/-- Modelled from the spec: `util.read_ushort` consumes two bytes,
little-endian. -/
def read_ushort : List Nat → Option (Nat × List Nat)
  | b0 :: b1 :: rest => some (b0 + 256 * b1, rest)
  | _ => none

/-- Modelled from the spec: `util.write_bool` emits one flag byte. -/
def write_bool (b : Bool) : List Nat := [if b then 1 else 0]

/-- Modelled from the spec: `util.read_bool` consumes one flag byte;
any nonzero byte reads as true. -/
def read_bool : List Nat → Option (Bool × List Nat)
  | b :: rest => some (b != 0, rest)
  | _ => none

/-- Modelled from the spec: `util.write_string` emits a 16-bit length
prefix followed by the string's bytes. -/
def write_string (s : Str) : List Nat := write_ushort s.length ++ s

/-- Modelled from the spec: `util.read_string` consumes a 16-bit length
prefix and then that many bytes. -/
def read_string (bs : List Nat) : Option (Str × List Nat) :=
  match read_ushort bs with
  | some (n, rest) =>
      if n ≤ rest.length then some (rest.take n, rest.drop n) else none
  | none => none

end util

/-- Modelled from the spec: the closed table of real blend-mode codes.
The enumeration itself (`blend_mode.py`) is not part of the given source;
only the size of the table and the distinctness of the symbolic names
matter, so names are represented by distinct one-byte strings. The
`Unspecified` sentinel is not a row of this table. -/
def blendModeNames : List Str := (List.range 13).map (fun i => [i + 65])

/-- The blend mode of a pass: either the `Unspecified` sentinel or a real
code indexing `blendModeNames`. -/
inductive BlendMode where
  | Unspecified : BlendMode
  | mode (code : Nat) : BlendMode
deriving DecidableEq, Repr

/-- Modelled from the spec: numeric index lookup `BlendMode[code]`, which
fails on a code outside the closed table. -/
def BlendMode.fromCode (c : Nat) : Option BlendMode :=
  if c < blendModeNames.length then some (BlendMode.mode c) else none

/-- The numeric value of a blend mode (`.value` in the source); the
sentinel has no real code and is never asked for one by `Pass.write`. -/
def BlendMode.value : BlendMode → Nat
  | BlendMode.Unspecified => 0
  | BlendMode.mode c => c

/-- The symbolic name of a blend mode (`.name` in the source). -/
def BlendMode.bmName : BlendMode → Str
  | BlendMode.Unspecified => []
  | BlendMode.mode c => (blendModeNames.get? c).getD []

/-- First index of a string in a name table. -/
def idxOf? (s : Str) : List Str → Option Nat
  | [] => none
  | t :: rest => if t = s then some 0 else (idxOf? s rest).map (· + 1)

/-- Modelled from the spec: reverse name lookup `BlendMode(name)`, failing
(`UnknownBlendModeError`) when the name is not in the closed table. -/
def BlendMode.fromName (s : Str) : Option BlendMode :=
  (idxOf? s blendModeNames).map BlendMode.mode

/-- Modelled from the spec: table of platform names used by the
`SupportedPlatforms` tree form (the codec itself is out of scope; only
its interface `get_bit_string` / `serialize` / `load` is used). -/
def platformNames : List Str := (List.range 16).map (fun i => [i + 97])

/-- Modelled from the spec: the `SupportedPlatforms` bitset, carried as
its string-encoded bitmask; constructed from the raw bit string by
`read` and rendered back by `get_bit_string`. -/
structure SupportedPlatforms where
  bits : Str
deriving DecidableEq, Repr

/-- Modelled from the spec: `get_bit_string` renders the bitmask string. -/
def SupportedPlatforms.get_bit_string (sp : SupportedPlatforms) : Str :=
  sp.bits

/-- Modelled from the spec: tree form of the platform bitset, a mapping
from platform name to boolean. -/
def SupportedPlatforms.serialize (sp : SupportedPlatforms) : List (Str × Bool) :=
  platformNames.zip (sp.bits.map (fun b => b != 48))

/-- Modelled from the spec: `SupportedPlatforms.load` folds each present
per-platform boolean into the bitmask; loading an empty tree changes
nothing. -/
def SupportedPlatforms.load (sp : SupportedPlatforms) (t : List (Str × Bool)) :
    SupportedPlatforms :=
  t.foldl
    (fun s kv =>
      match idxOf? kv.1 platformNames with
      | some i => ⟨s.bits.set i (if kv.2 then 49 else 48)⟩
      | none => s)
    sp

/-- Modelled from the spec: a Variant, an opaque collaborator exposing a
`flags` mapping and a list of per-platform shader objects.  A shader is
carried as its raw byte payload.  `sourcePath` records the base path the
variant was loaded from (the spec: variant loading is delegated with a
constructed path establishing where its shader blobs live); it is not
part of the binary form and is empty on a variant obtained from `read`. -/
structure Variant where
  flags : List (Str × Str)
  shaders : List Str
  sourcePath : Str
deriving DecidableEq, Repr

/-- Python-dict insertion: updating an existing key keeps its position,
a new key is appended. -/
def dictInsert (d : List (Str × Str)) (k v : Str) : List (Str × Str) :=
  if (d.map Prod.fst).contains k then
    d.map (fun kv => if kv.1 = k then (k, v) else kv)
  else d ++ [(k, v)]

/-- Read `k` repetitions of (length-prefixed key, length-prefixed value)
into a dict, insertion order preserved. -/
def readPairs : Nat → List (Str × Str) → List Nat →
    Option (List (Str × Str) × List Nat)
  | 0, acc, bs => some (acc, bs)
  | k + 1, acc, bs => do
    let (key, bs) ← util.read_string bs
    let (v, bs) ← util.read_string bs
    readPairs k (dictInsert acc key v) bs

/-- Write each (key, value) pair as two length-prefixed strings, in
insertion order. -/
def writePairs : List (Str × Str) → List Nat
  | [] => []
  | kv :: rest => util.write_string kv.1 ++ util.write_string kv.2 ++ writePairs rest

/-- Read `n` length-prefixed raw shader payloads. -/
def readBlobs : Nat → List Nat → Option (List Str × List Nat)
  | 0, bs => some ([], bs)
  | n + 1, bs => do
    let (s, bs) ← util.read_string bs
    let (rest, bs) ← readBlobs n bs
    some (s :: rest, bs)

/-- Write each raw shader payload length-prefixed. -/
def writeBlobs : List Str → List Nat
  | [] => []
  | s :: rest => util.write_string s ++ writeBlobs rest

/-- Modelled from the spec: the Variant binary codec (an external format;
`variant.py` is not part of the given source).  Modelled as a 16-bit flag
count followed by the flag pairs, then a 16-bit shader count followed by
the length-prefixed shader payloads; `Variant().read(file)` constructs a
fresh variant from the cursor. -/
def Variant.read (bs : List Nat) : Option (Variant × List Nat) := do
  let (k, bs) ← util.read_ushort bs
  let (fl, bs) ← readPairs k [] bs
  let (n, bs) ← util.read_ushort bs
  let (sh, bs) ← readBlobs n bs
  some ({ flags := fl, shaders := sh, sourcePath := [] }, bs)

/-- Modelled from the spec: inverse of `Variant.read`, same field order. -/
def Variant.write (v : Variant) : List Nat :=
  util.write_ushort v.flags.length ++ writePairs v.flags ++
    util.write_ushort v.shaders.length ++ writeBlobs v.shaders

/-- Modelled from the spec: `Variant.merge_variant` combines the matched
variants' per-platform shader sets; the receiving variant keeps its own
flags and gains the other's shaders. -/
def Variant.merge_variant (v other : Variant) : Variant :=
  { v with shaders := v.shaders ++ other.shaders }

/-- Read `n` Variant records in list order. -/
def readVariantList : Nat → List Nat → Option (List Variant × List Nat)
  | 0, bs => some ([], bs)
  | n + 1, bs => do
    let (v, bs) ← Variant.read bs
    let (vs, bs) ← readVariantList n bs
    some (v :: vs, bs)

/-- Write each Variant record in list order. -/
def writeVariantList : List Variant → List Nat
  | [] => []
  | v :: vs => Variant.write v ++ writeVariantList vs

/-- The Pass record (`shader_pass.py`, class `Pass`). -/
structure Pass where
  name : Str
  supported_platforms : SupportedPlatforms
  fallback_pass : Str
  default_blend_mode : BlendMode
  default_variant : List (Str × Str)
  variants : List Variant
deriving DecidableEq, Repr

/-- Source `Pass.__init__`: the freshly constructed, empty Pass. -/
def Pass.init : Pass where
  name := []
  supported_platforms := ⟨[]⟩
  fallback_pass := []
  default_blend_mode := BlendMode.Unspecified
  default_variant := []
  variants := []

/-- Source `Pass.read` (`shader_pass.py` lines 28-46): mutates `self` from the
byte cursor.  Note the blend-mode branch: when the flag byte is false the
field is left at its current value (the source has no else branch). -/
def Pass.read (self : Pass) (bs : List Nat) : Option (Pass × List Nat) := do
  let (nm, bs) ← util.read_string bs
  let (pb, bs) ← util.read_string bs
  let (fb, bs) ← util.read_string bs
  let (flag, bs) ← util.read_bool bs
  let (blend, bs) ←
    if flag then do
      let (c, bs) ← util.read_ushort bs
      let m ← BlendMode.fromCode c
      some (m, bs)
    else
      some (self.default_blend_mode, bs)
  let (k, bs) ← util.read_ushort bs
  let (dv, bs) ← readPairs k [] bs
  let (n, bs) ← util.read_ushort bs
  let (vs, bs) ← readVariantList n bs
  some ({ name := nm, supported_platforms := ⟨pb⟩, fallback_pass := fb,
          default_blend_mode := blend, default_variant := dv,
          variants := vs }, bs)

/-- Source `Pass.write` (`shader_pass.py` lines 48-65): inverse of `read`, same
field order; the blend-mode code is written only when the mode is not the
`Unspecified` sentinel. -/
def Pass.write (p : Pass) : List Nat :=
  util.write_string p.name ++
    util.write_string p.supported_platforms.get_bit_string ++
    util.write_string p.fallback_pass ++
    util.write_bool (p.default_blend_mode != BlendMode.Unspecified) ++
    (if p.default_blend_mode != BlendMode.Unspecified then
      util.write_ushort p.default_blend_mode.value
    else []) ++
    util.write_ushort p.default_variant.length ++
    writePairs p.default_variant ++
    util.write_ushort p.variants.length ++
    writeVariantList p.variants

/-- Modelled from the spec: the tree (descriptor) form of a Variant.  Its
content beyond the `flags` mapping is opaque to the Pass core; `index` is
the positional index passed through by `serialize_properties` so the
variant can label its shader blobs. -/
structure VariantTree where
  flags : List (Str × Str)
  index : Nat
deriving DecidableEq, Repr

/-- Modelled from the spec: `Variant.serialize_properties(i)`. -/
def Variant.serialize_properties (v : Variant) (i : Nat) : VariantTree :=
  { flags := v.flags, index := i }

/-- Path join `os.path.join(path, name)`. -/
def pathJoin (p n : Str) : Str := p ++ [47] ++ n

/-- Modelled from the spec: `Variant().load(tree, path)` constructs a
fresh variant from the tree; the constructed path establishes where the
variant's shader blobs live on disk (filesystem reads are out of scope,
so the payloads themselves are not modelled). -/
def Variant.load (t : VariantTree) (path : Str) : Variant :=
  { flags := t.flags, shaders := [], sourcePath := path }

/-- The tree (descriptor) form of a Pass: every key optional on load,
every key present on save.  `none` models an absent key. -/
structure PassTree where
  name : Option Str := none
  supported_platforms : Option (List (Str × Bool)) := none
  fallback_pass : Option Str := none
  default_blend_mode : Option Str := none
  default_variant : Option (List (Str × Str)) := none
  variants : Option (List VariantTree) := none
deriving DecidableEq, Repr

/-- The empty tree `{}`. -/
def PassTree.empty : PassTree := {}

/-- Enumerate a list with indices `0, 1, ...` (the `range(len(...))`
loop of `serialize_properties`). -/
def enumIdx (l : List Variant) : List (Variant × Nat) :=
  l.zip (List.range l.length)

/-- Source `Pass.serialize_properties` (`shader_pass.py` lines 67-83): produces
the key-value tree; `default_blend_mode` is the symbolic name, or the
empty string when the mode is the `Unspecified` sentinel. -/
def Pass.serialize_properties (p : Pass) : PassTree where
  name := some p.name
  supported_platforms := some p.supported_platforms.serialize
  fallback_pass := some p.fallback_pass
  default_blend_mode :=
    some (if p.default_blend_mode != BlendMode.Unspecified then
            p.default_blend_mode.bmName
          else [])
  default_variant := some p.default_variant
  variants := some ((enumIdx p.variants).map
    (fun vi => Variant.serialize_properties vi.1 vi.2))

/-- Source `Pass.load` (`shader_pass.py` lines 105-119): field-by-field, every
field falls back to the current in-memory value when its key is absent; a
present-but-empty `default_blend_mode` resets to the sentinel, a present
non-empty one goes through reverse name lookup and the whole load fails
(`UnknownBlendModeError`) when the name is unknown; a present `variants`
list fully replaces the current one, each variant loaded with the path
built from the just-assigned name. -/
def Pass.load (self : Pass) (t : PassTree) (path : Str) : Option Pass := do
  let nm := t.name.getD self.name
  let sp := self.supported_platforms.load (t.supported_platforms.getD [])
  let fb := t.fallback_pass.getD self.fallback_pass
  let blend ←
    match t.default_blend_mode with
    | none => some self.default_blend_mode
    | some s =>
        if s = [] then some BlendMode.Unspecified else BlendMode.fromName s
  let dv := t.default_variant.getD self.default_variant
  let vs :=
    match t.variants with
    | none => self.variants
    | some ts => ts.map (fun vt => Variant.load vt (pathJoin path nm))
  some { name := nm, supported_platforms := sp, fallback_pass := fb,
         default_blend_mode := blend, default_variant := dv, variants := vs }

/-- Byte-wise lexicographic order on strings (Python string comparison,
which UTF-8 byte order agrees with). -/
def strLe : Str → Str → Bool
  | [], _ => true
  | _ :: _, [] => false
  | a :: as, b :: bs => if a < b then true else if a = b then strLe as bs else false

/-- Python tuple comparison on (key, value) pairs: by key, then value. -/
def pairLe (p q : Str × Str) : Bool :=
  if p.1 = q.1 then strLe p.2 q.2 else strLe p.1 q.1

/-- The relation `sorted` uses on dict items. -/
def pairLeR (p q : Str × Str) : Prop := pairLe p q = true

instance : DecidableRel pairLeR := fun p q => by
  unfold pairLeR; infer_instance

/-- Python `dict(sorted(d.items()))`: the item list sorted by (key, value). -/
def sortPairs (d : List (Str × Str)) : List (Str × Str) :=
  List.insertionSort pairLeR d

/-- Python `repr` of a simple string: surrounding single quotes. -/
def quoteStr (s : Str) : Str := [39] ++ s ++ [39]

/-- Python `repr` of one dict item: quoted key, colon, space, quoted
value. -/
def itemStr (kv : Str × Str) : Str := quoteStr kv.1 ++ [58, 32] ++ quoteStr kv.2

/-- Comma-space separated concatenation. -/
def joinComma : List Str → Str
  | [] => []
  | [s] => s
  | s :: rest => s ++ [44, 32] ++ joinComma rest

/-- Python `str(flags)`: the string form of the flags dict, used as the sort
key of the variant list. -/
def flagsStr (d : List (Str × Str)) : Str :=
  [123] ++ joinComma (d.map itemStr) ++ [125]

/-- The variant-list sort relation: by the string form of the flags. -/
def variantLeR (v w : Variant) : Prop :=
  strLe (flagsStr v.flags) (flagsStr w.flags) = true

instance : DecidableRel variantLeR := fun v w => by
  unfold variantLeR; infer_instance

/-- A variant with its flags dict sorted by key. -/
def sortFlags (v : Variant) : Variant := { v with flags := sortPairs v.flags }

/-- Source `Pass.sort_variants` (`shader_pass.py` lines 127-133): sorts
`default_variant` by key, each variant's flags by key, and the variant
list by the string form of its (now sorted) flags; Python `list.sort` is
stable, as is insertion sort. -/
def Pass.sort_variants (p : Pass) : Pass :=
  { p with
    default_variant := sortPairs p.default_variant,
    variants := List.insertionSort variantLeR (p.variants.map sortFlags) }

/-- Python dict equality: same keys with the same values, order
ignored. -/
def dictEq (a b : List (Str × Str)) : Bool :=
  a.all (fun kv => b.lookup kv.1 = some kv.2) &&
    b.all (fun kv => a.lookup kv.1 = some kv.2)

/-- Merge one of `other`'s variants into the list: the first variant with
an equal flags dict absorbs it via `merge_variant`; with no match it is
appended. -/
def mergeOne : List Variant → Variant → List Variant
  | [], ov => [ov]
  | v :: vs, ov =>
      if dictEq v.flags ov.flags then v.merge_variant ov :: vs
      else v :: mergeOne vs ov

/-- Source `Pass.merge_variants` (`shader_pass.py` lines 149-157): for every
variant of `other` in order, merge into the first flag-equal variant of
`self`, else append. -/
def Pass.merge_variants (self other : Pass) : Pass :=
  { self with variants := other.variants.foldl mergeOne self.variants }

/-- Add one observed value for a flag key: an existing key's set grows in
place, a new key is appended with a fresh singleton set. -/
def addDef (ds : List (Str × Finset Str)) (k v : Str) : List (Str × Finset Str) :=
  if (ds.map Prod.fst).contains k then
    ds.map (fun d => if d.1 = k then (d.1, insert v d.2) else d)
  else ds ++ [(k, {v})]

/-- Source `Pass.get_flag_definitions` (`shader_pass.py` lines 159-170): every
flag key with the set of all values it takes; `default_variant` seeds
each of its keys with a singleton. -/
def Pass.get_flag_definitions (p : Pass) : List (Str × Finset Str) :=
  p.variants.foldl
    (fun ds v => v.flags.foldl (fun ds kv => addDef ds kv.1 kv.2) ds)
    (p.default_variant.map (fun kv => (kv.1, ({kv.2} : Finset Str))))

/-! ### Well-formedness of values flowing through the binary codec -/

/-- A string the codec can carry: its length fits the 16-bit prefix and
its entries are bytes. -/
def StrWF (s : Str) : Prop := s.length < 65536 ∧ BytesOk s

instance (s : Str) : Decidable (StrWF s) := by
  unfold StrWF; infer_instance

/-- A flag dict the codec can carry. -/
def PairsWF (l : List (Str × Str)) : Prop :=
  (∀ kv ∈ l, StrWF kv.1 ∧ StrWF kv.2) ∧ (l.map Prod.fst).Nodup

instance (l : List (Str × Str)) : Decidable (PairsWF l) := by
  unfold PairsWF; infer_instance

/-- A variant the binary codec can carry, in the canonical shape `read`
produces. -/
def Variant.WFbin (v : Variant) : Prop :=
  PairsWF v.flags ∧ v.flags.length < 65536 ∧ v.shaders.length < 65536 ∧
    (∀ s ∈ v.shaders, StrWF s) ∧ v.sourcePath = []

instance (v : Variant) : Decidable v.WFbin := by
  unfold Variant.WFbin; infer_instance

/-- A blend mode the codec can carry: the sentinel, or a real code of the
closed table. -/
def BlendWF : BlendMode → Prop
  | BlendMode.Unspecified => True
  | BlendMode.mode c => c < blendModeNames.length

instance (m : BlendMode) : Decidable (BlendWF m) := by
  cases m <;> unfold BlendWF <;> infer_instance

/-- A pass the binary codec can carry, in the canonical shape `read`
produces. -/
def Pass.WFbin (p : Pass) : Prop :=
  StrWF p.name ∧ StrWF p.supported_platforms.bits ∧ StrWF p.fallback_pass ∧
    BlendWF p.default_blend_mode ∧ PairsWF p.default_variant ∧
    p.default_variant.length < 65536 ∧ p.variants.length < 65536 ∧
    ∀ v ∈ p.variants, v.WFbin

instance (p : Pass) : Decidable p.WFbin := by
  unfold Pass.WFbin; infer_instance

/-! ### Decode/encode lemmas for the primitive fields -/

theorem read_ushort_write (n : Nat) (hn : n < 65536) (rest : List Nat) :
    util.read_ushort (util.write_ushort n ++ rest) = some (n, rest) := by
  simp only [util.write_ushort, util.read_ushort, List.cons_append, List.nil_append]
  have h1 : n / 256 < 256 := by omega
  have h2 : n / 256 % 256 = n / 256 := Nat.mod_eq_of_lt h1
  have h3 : n % 256 + 256 * (n / 256) = n := by
    have := Nat.mod_add_div n 256; omega
  rw [h2, h3]

theorem read_ushort_ok {bs r : List Nat} {n : Nat} (hbs : BytesOk bs)
    (h : util.read_ushort bs = some (n, r)) : n < 65536 ∧ BytesOk r := by
  match bs, h with
  | b0 :: b1 :: rest, h =>
    simp only [util.read_ushort, Option.some.injEq, Prod.mk.injEq] at h
    obtain ⟨rfl, rfl⟩ := h
    have h0 := hbs b0 (by simp)
    have h1 := hbs b1 (by simp)
    exact ⟨by omega, fun b hb => hbs b (by simp [hb])⟩

theorem read_bool_write (b : Bool) (rest : List Nat) :
    util.read_bool (util.write_bool b ++ rest) = some (b, rest) := by
  cases b <;> rfl

theorem read_bool_ok {bs r : List Nat} {b : Bool} (hbs : BytesOk bs)
    (h : util.read_bool bs = some (b, r)) : BytesOk r := by
  match bs, h with
  | b0 :: rest, h =>
    simp only [util.read_bool, Option.some.injEq, Prod.mk.injEq] at h
    obtain ⟨-, rfl⟩ := h
    exact fun x hx => hbs x (by simp [hx])

theorem read_string_write (s : Str) (hs : s.length < 65536) (rest : List Nat) :
    util.read_string (util.write_string s ++ rest) = some (s, rest) := by
  simp only [util.write_string, util.read_string, List.append_assoc,
    read_ushort_write s.length hs]
  rw [if_pos (by simp)]
  rw [List.take_left, List.drop_left]

theorem read_string_ok {bs r : List Nat} {s : Str} (hbs : BytesOk bs)
    (h : util.read_string bs = some (s, r)) : StrWF s ∧ BytesOk r := by
  unfold util.read_string at h
  cases hu : util.read_ushort bs with
  | none => rw [hu] at h; exact absurd h (by simp)
  | some nr =>
    obtain ⟨n, rest⟩ := nr
    rw [hu] at h
    dsimp only at h
    obtain ⟨hn, hrest⟩ := read_ushort_ok hbs hu
    by_cases hle : n ≤ rest.length
    · rw [if_pos hle] at h
      simp only [Option.some.injEq, Prod.mk.injEq] at h
      obtain ⟨rfl, rfl⟩ := h
      refine ⟨⟨?_, ?_⟩, ?_⟩
      · calc (rest.take n).length ≤ n := by simp
          _ < 65536 := hn
      · exact fun b hb => hrest b (List.mem_of_mem_take hb)
      · exact fun b hb => hrest b (List.mem_of_mem_drop hb)
    · rw [if_neg hle] at h; exact absurd h (by simp)

/-! ### Decode/encode lemmas for flag-pair lists -/

theorem dictInsert_of_not_mem {acc : List (Str × Str)} {k : Str}
    (h : k ∉ acc.map Prod.fst) (v : Str) :
    dictInsert acc k v = acc ++ [(k, v)] := by
  unfold dictInsert
  rw [if_neg (by simpa [List.elem_iff] using h)]

theorem dictInsert_keys_update {d : List (Str × Str)} {k : Str} (v : Str) :
    (d.map (fun kv => if kv.1 = k then (k, v) else kv)).map Prod.fst =
      d.map Prod.fst := by
  rw [List.map_map]
  apply List.map_congr_left
  intro kv _
  by_cases he : kv.1 = k
  · simp [he]
  · simp [he]

theorem dictInsert_wf {d : List (Str × Str)} {k v : Str} (hd : PairsWF d)
    (hk : StrWF k) (hv : StrWF v) :
    PairsWF (dictInsert d k v) ∧ (dictInsert d k v).length ≤ d.length + 1 := by
  unfold dictInsert
  by_cases hc : (d.map Prod.fst).contains k
  · rw [if_pos hc]
    refine ⟨⟨?_, ?_⟩, by simp⟩
    · intro kv hkv
      simp only [List.mem_map] at hkv
      obtain ⟨kv0, hkv0, rfl⟩ := hkv
      by_cases he : kv0.1 = k
      · simpa [he] using ⟨hk, hv⟩
      · simpa [he] using hd.1 kv0 hkv0
    · rw [dictInsert_keys_update]
      exact hd.2
  · rw [if_neg hc]
    refine ⟨⟨?_, ?_⟩, by simp⟩
    · intro kv hkv
      rcases List.mem_append.1 hkv with h1 | h1
      · exact hd.1 kv h1
      · simp only [List.mem_singleton] at h1
        subst h1; exact ⟨hk, hv⟩
    · rw [List.map_append]
      refine List.Nodup.append hd.2 (by simp) ?_
      intro a ha hb
      simp only [List.map_cons, List.map_nil, List.mem_singleton] at hb
      subst hb
      exact hc (by simpa [List.elem_iff] using ha)

theorem readPairs_writePairs :
    ∀ (dv acc : List (Str × Str)) (rest : List Nat),
      (((acc ++ dv).map Prod.fst).Nodup) →
      (∀ kv ∈ dv, StrWF kv.1 ∧ StrWF kv.2) →
      readPairs dv.length acc (writePairs dv ++ rest) = some (acc ++ dv, rest)
  | [], acc, rest, _, _ => by simp [readPairs, writePairs]
  | kv :: dv, acc, rest, hnd, hwf => by
    obtain ⟨hk, hv⟩ := hwf kv (by simp)
    have hmem : kv.1 ∉ acc.map Prod.fst := by
      simp only [List.map_append, List.map_cons] at hnd
      intro hin
      exact (List.disjoint_of_nodup_append hnd) hin (by simp)
    simp only [writePairs, readPairs, List.append_assoc, List.length_cons]
    rw [read_string_write kv.1 hk.1]
    simp only [Option.bind_eq_bind, Option.some_bind]
    rw [read_string_write kv.2 hv.1]
    simp only [Option.some_bind]
    rw [dictInsert_of_not_mem hmem]
    have := readPairs_writePairs dv (acc ++ [(kv.1, kv.2)]) rest
      (by simpa using hnd) (fun x hx => hwf x (by simp [hx]))
    simpa using this

theorem readPairs_ok :
    ∀ (k : Nat) (acc : List (Str × Str)) (bs : List Nat)
      {dv : List (Str × Str)} {r : List Nat},
      BytesOk bs → PairsWF acc → readPairs k acc bs = some (dv, r) →
      PairsWF dv ∧ dv.length ≤ acc.length + k ∧ BytesOk r
  | 0, acc, bs, dv, r, hbs, hacc, h => by
    simp only [readPairs, Option.some.injEq, Prod.mk.injEq] at h
    obtain ⟨rfl, rfl⟩ := h
    exact ⟨hacc, by omega, hbs⟩
  | k + 1, acc, bs, dv, r, hbs, hacc, h => by
    rw [readPairs] at h
    cases h1 : util.read_string bs with
    | none => rw [h1] at h; exact absurd h (by simp)
    | some sr =>
      obtain ⟨key, bs1⟩ := sr
      rw [h1] at h
      simp only [Option.bind_eq_bind, Option.some_bind] at h
      obtain ⟨hkey, hbs1⟩ := read_string_ok hbs h1
      cases h2 : util.read_string bs1 with
      | none => rw [h2] at h; exact absurd h (by simp)
      | some sr2 =>
        obtain ⟨v, bs2⟩ := sr2
        rw [h2] at h
        obtain ⟨hval, hbs2⟩ := read_string_ok hbs1 h2
        simp only [Option.bind_eq_bind, Option.some_bind] at h
        obtain ⟨hwf, hlen⟩ := dictInsert_wf hacc hkey hval
        obtain ⟨h3, h4, h5⟩ := readPairs_ok k (dictInsert acc key v) bs2 hbs2 hwf h
        exact ⟨h3, by omega, h5⟩

/-! ### Decode/encode lemmas for shader blobs and Variant records -/

theorem readBlobs_writeBlobs :
    ∀ (l : List Str) (rest : List Nat),
      (∀ s ∈ l, s.length < 65536) →
      readBlobs l.length (writeBlobs l ++ rest) = some (l, rest)
  | [], rest, _ => by simp [readBlobs, writeBlobs]
  | s :: l, rest, hwf => by
    simp only [writeBlobs, readBlobs, List.append_assoc, List.length_cons]
    rw [read_string_write s (hwf s (by simp))]
    simp only [Option.bind_eq_bind, Option.some_bind]
    rw [readBlobs_writeBlobs l rest (fun x hx => hwf x (by simp [hx]))]
    rfl

theorem readBlobs_ok :
    ∀ (n : Nat) (bs : List Nat) {l : List Str} {r : List Nat},
      BytesOk bs → readBlobs n bs = some (l, r) →
      (∀ s ∈ l, StrWF s) ∧ l.length = n ∧ BytesOk r
  | 0, bs, l, r, hbs, h => by
    simp only [readBlobs, Option.some.injEq, Prod.mk.injEq] at h
    obtain ⟨rfl, rfl⟩ := h
    exact ⟨by simp, rfl, hbs⟩
  | n + 1, bs, l, r, hbs, h => by
    rw [readBlobs] at h
    cases h1 : util.read_string bs with
    | none => rw [h1] at h; exact absurd h (by simp)
    | some sr =>
      obtain ⟨s, bs1⟩ := sr
      rw [h1] at h
      simp only [Option.bind_eq_bind, Option.some_bind] at h
      obtain ⟨hs, hbs1⟩ := read_string_ok hbs h1
      cases h2 : readBlobs n bs1 with
      | none => rw [h2] at h; exact absurd h (by simp)
      | some lr =>
        obtain ⟨l1, r1⟩ := lr
        rw [h2] at h
        simp only [Option.some_bind, Option.some.injEq, Prod.mk.injEq] at h
        obtain ⟨rfl, rfl⟩ := h
        obtain ⟨ha, hb, hc⟩ := readBlobs_ok n bs1 hbs1 h2
        refine ⟨?_, by simp [hb], hc⟩
        intro x hx
        rcases List.mem_cons.1 hx with rfl | hx
        · exact hs
        · exact ha x hx

theorem variant_read_write (v : Variant) (hv : v.WFbin) (rest : List Nat) :
    Variant.read (Variant.write v ++ rest) = some (v, rest) := by
  obtain ⟨⟨hwf, hnd⟩, hfl, hsl, hsh, hsp⟩ := hv
  simp only [Variant.write, Variant.read, List.append_assoc]
  rw [read_ushort_write v.flags.length hfl]
  simp only [Option.bind_eq_bind, Option.some_bind]
  rw [readPairs_writePairs v.flags [] _ (by simpa using hnd) hwf]
  simp only [Option.some_bind, List.nil_append]
  rw [read_ushort_write v.shaders.length hsl]
  simp only [Option.some_bind]
  rw [readBlobs_writeBlobs v.shaders rest (fun s hs => (hsh s hs).1)]
  simp only [Option.some_bind, Option.some.injEq, Prod.mk.injEq]
  exact ⟨by cases v; simp_all, trivial⟩

theorem variant_read_ok {bs r : List Nat} {v : Variant} (hbs : BytesOk bs)
    (h : Variant.read bs = some (v, r)) : v.WFbin ∧ BytesOk r := by
  rw [Variant.read] at h
  cases h1 : util.read_ushort bs with
  | none => rw [h1] at h; exact absurd h (by simp)
  | some kr =>
    obtain ⟨k, bs1⟩ := kr
    rw [h1] at h
    simp only [Option.bind_eq_bind, Option.some_bind] at h
    obtain ⟨hk, hbs1⟩ := read_ushort_ok hbs h1
    cases h2 : readPairs k [] bs1 with
    | none => rw [h2] at h; exact absurd h (by simp)
    | some fr =>
      obtain ⟨fl, bs2⟩ := fr
      rw [h2] at h
      simp only [Option.some_bind] at h
      obtain ⟨hflwf, hfllen, hbs2⟩ :=
        readPairs_ok k [] bs1 hbs1 (by constructor <;> simp) h2
      cases h3 : util.read_ushort bs2 with
      | none => rw [h3] at h; exact absurd h (by simp)
      | some nr =>
        obtain ⟨n, bs3⟩ := nr
        rw [h3] at h
        simp only [Option.some_bind] at h
        obtain ⟨hn, hbs3⟩ := read_ushort_ok hbs2 h3
        cases h4 : readBlobs n bs3 with
        | none => rw [h4] at h; exact absurd h (by simp)
        | some sr =>
          obtain ⟨sh, bs4⟩ := sr
          rw [h4] at h
          simp only [Option.some_bind, Option.some.injEq, Prod.mk.injEq] at h
          obtain ⟨hshwf, hshlen, hbs4⟩ := readBlobs_ok n bs3 hbs3 h4
          obtain ⟨rfl, rfl⟩ := h
          have hfl2 : fl.length < 65536 := by simp at hfllen; omega
          have hsh2 : sh.length < 65536 := by omega
          exact ⟨⟨hflwf, hfl2, hsh2, hshwf, rfl⟩, hbs4⟩

theorem readVariantList_write :
    ∀ (l : List Variant) (rest : List Nat),
      (∀ v ∈ l, v.WFbin) →
      readVariantList l.length (writeVariantList l ++ rest) = some (l, rest)
  | [], rest, _ => by simp [readVariantList, writeVariantList]
  | v :: l, rest, hwf => by
    simp only [writeVariantList, readVariantList, List.append_assoc,
      List.length_cons]
    rw [variant_read_write v (hwf v (by simp))]
    simp only [Option.bind_eq_bind, Option.some_bind]
    rw [readVariantList_write l rest (fun x hx => hwf x (by simp [hx]))]
    rfl

theorem readVariantList_ok :
    ∀ (n : Nat) (bs : List Nat) {l : List Variant} {r : List Nat},
      BytesOk bs → readVariantList n bs = some (l, r) →
      (∀ v ∈ l, v.WFbin) ∧ l.length = n ∧ BytesOk r
  | 0, bs, l, r, hbs, h => by
    simp only [readVariantList, Option.some.injEq, Prod.mk.injEq] at h
    obtain ⟨rfl, rfl⟩ := h
    exact ⟨by simp, rfl, hbs⟩
  | n + 1, bs, l, r, hbs, h => by
    rw [readVariantList] at h
    cases h1 : Variant.read bs with
    | none => rw [h1] at h; exact absurd h (by simp)
    | some vr =>
      obtain ⟨v, bs1⟩ := vr
      rw [h1] at h
      simp only [Option.bind_eq_bind, Option.some_bind] at h
      obtain ⟨hv, hbs1⟩ := variant_read_ok hbs h1
      cases h2 : readVariantList n bs1 with
      | none => rw [h2] at h; exact absurd h (by simp)
      | some lr =>
        obtain ⟨l1, r1⟩ := lr
        rw [h2] at h
        simp only [Option.some_bind, Option.some.injEq, Prod.mk.injEq] at h
        obtain ⟨rfl, rfl⟩ := h
        obtain ⟨ha, hb, hc⟩ := readVariantList_ok n bs1 hbs1 h2
        refine ⟨?_, by simp [hb], hc⟩
        intro x hx
        rcases List.mem_cons.1 hx with rfl | hx
        · exact hv
        · exact ha x hx

/-! ### The Pass record's wire layout -/

/-- The optional blend-mode section of the wire: flag byte, then the
16-bit code only when present. -/
def blendSection : Option Nat → List Nat
  | some c => util.write_bool true ++ util.write_ushort c
  | none => util.write_bool false

/-- Decoding a Pass record laid out field by field: three length-prefixed
strings, the boolean blend-mode flag with its optional 16-bit code, the
counted key/value pairs, and the counted Variant records, in that order.
When the flag is false the blend mode retains `self`'s current value. -/
theorem pass_read_layout (self : Pass) (nm pb fb : Str) (blend : Option Nat)
    (dv : List (Str × Str)) (vs : List Variant) (rest : List Nat)
    (hnm : nm.length < 65536) (hpb : pb.length < 65536) (hfb : fb.length < 65536)
    (hbl : ∀ c, blend = some c → c < blendModeNames.length)
    (hdvn : (dv.map Prod.fst).Nodup)
    (hdvw : ∀ kv ∈ dv, StrWF kv.1 ∧ StrWF kv.2)
    (hdvl : dv.length < 65536)
    (hvs : ∀ v ∈ vs, v.WFbin) (hvsl : vs.length < 65536) :
    Pass.read self
      (util.write_string nm ++ util.write_string pb ++ util.write_string fb ++
        blendSection blend ++
        util.write_ushort dv.length ++ writePairs dv ++
        util.write_ushort vs.length ++ writeVariantList vs ++ rest) =
      some ({ name := nm, supported_platforms := ⟨pb⟩, fallback_pass := fb,
              default_blend_mode :=
                match blend with
                | some c => BlendMode.mode c
                | none => self.default_blend_mode,
              default_variant := dv, variants := vs }, rest) := by
  have hpairs := readPairs_writePairs dv []
    (util.write_ushort vs.length ++ (writeVariantList vs ++ rest))
    (by simpa using hdvn) hdvw
  rw [List.nil_append] at hpairs
  simp only [Pass.read, List.append_assoc]
  rw [read_string_write nm hnm]
  simp only [Option.bind_eq_bind, Option.some_bind]
  rw [read_string_write pb hpb]
  simp only [Option.some_bind]
  rw [read_string_write fb hfb]
  simp only [Option.some_bind]
  cases blend with
  | none =>
    simp only [blendSection, List.append_assoc]
    rw [read_bool_write false]
    simp only [Option.some_bind, Bool.false_eq_true, if_false]
    rw [read_ushort_write dv.length hdvl]
    simp only [Option.some_bind]
    rw [hpairs]
    simp only [Option.some_bind]
    rw [read_ushort_write vs.length hvsl]
    simp only [Option.some_bind]
    rw [readVariantList_write vs rest hvs]
    rfl
  | some c =>
    simp only [blendSection, List.append_assoc]
    rw [read_bool_write true]
    simp only [Option.some_bind, if_true]
    rw [read_ushort_write c (by
      have := hbl c rfl
      have h13 : blendModeNames.length = 13 := by decide
      omega)]
    simp only [Option.some_bind]
    rw [BlendMode.fromCode, if_pos (hbl c rfl)]
    simp only [Option.some_bind]
    rw [read_ushort_write dv.length hdvl]
    simp only [Option.some_bind]
    rw [hpairs]
    simp only [Option.some_bind]
    rw [read_ushort_write vs.length hvsl]
    simp only [Option.some_bind]
    rw [readVariantList_write vs rest hvs]
    rfl

/-- Well-formedness of any Pass produced by `read` from an actual byte
stream (given the receiver's blend mode is itself carriable, as it is for
a fresh Pass). -/
theorem pass_read_ok {self : Pass} {bs r : List Nat} {p : Pass}
    (hbs : BytesOk bs) (hself : BlendWF self.default_blend_mode)
    (h : Pass.read self bs = some (p, r)) : p.WFbin ∧ BytesOk r := by
  rw [Pass.read] at h
  simp only [Option.bind_eq_bind] at h
  rcases Option.bind_eq_some.1 h with ⟨⟨nm, bs1⟩, h1, h⟩
  dsimp only at h
  obtain ⟨hnm, hbs1⟩ := read_string_ok hbs h1
  rcases Option.bind_eq_some.1 h with ⟨⟨pb, bs2⟩, h2, h⟩
  dsimp only at h
  obtain ⟨hpb, hbs2⟩ := read_string_ok hbs1 h2
  rcases Option.bind_eq_some.1 h with ⟨⟨fb, bs3⟩, h3, h⟩
  dsimp only at h
  obtain ⟨hfb, hbs3⟩ := read_string_ok hbs2 h3
  rcases Option.bind_eq_some.1 h with ⟨⟨flag, bs4⟩, h4, h⟩
  dsimp only at h
  have hbs4 : BytesOk bs4 := read_bool_ok hbs3 h4
  cases flag with
  | false =>
    simp only [Bool.false_eq_true, if_false, Option.some_bind] at h
    rcases Option.bind_eq_some.1 h with ⟨⟨k, bs6⟩, h6, h⟩
    dsimp only at h
    obtain ⟨hk, hbs6⟩ := read_ushort_ok hbs4 h6
    rcases Option.bind_eq_some.1 h with ⟨⟨dv, bs7⟩, h7, h⟩
    dsimp only at h
    obtain ⟨hdv, hdvl, hbs7⟩ := readPairs_ok k [] bs6 hbs6 (by constructor <;> simp) h7
    rcases Option.bind_eq_some.1 h with ⟨⟨n, bs8⟩, h8, h⟩
    dsimp only at h
    obtain ⟨hn, hbs8⟩ := read_ushort_ok hbs7 h8
    rcases Option.bind_eq_some.1 h with ⟨⟨vs, bs9⟩, h9, h⟩
    simp only [Option.some.injEq, Prod.mk.injEq] at h
    obtain ⟨hvw, hvl, hbs9⟩ := readVariantList_ok n bs8 hbs8 h9
    obtain ⟨rfl, rfl⟩ := h
    have hdl2 : dv.length < 65536 := by simp at hdvl; omega
    have hvl2 : vs.length < 65536 := by omega
    exact ⟨⟨hnm, hpb, hfb, hself, hdv, hdl2, hvl2, hvw⟩, hbs9⟩
  | true =>
    simp only [if_true] at h
    rcases Option.bind_eq_some.1 h with ⟨⟨c, bs5⟩, h5, h⟩
    dsimp only at h
    obtain ⟨hc, hbs5⟩ := read_ushort_ok hbs4 h5
    rcases Option.bind_eq_some.1 h with ⟨m, hm, h⟩
    simp only [Option.some_bind] at h
    have hmwf : BlendWF m := by
      rw [BlendMode.fromCode] at hm
      by_cases hcl : c < blendModeNames.length
      · rw [if_pos hcl] at hm
        simp only [Option.some.injEq] at hm
        subst hm
        exact hcl
      · rw [if_neg hcl] at hm
        exact absurd hm (by simp)
    rcases Option.bind_eq_some.1 h with ⟨⟨k, bs6⟩, h6, h⟩
    dsimp only at h
    obtain ⟨hk, hbs6⟩ := read_ushort_ok hbs5 h6
    rcases Option.bind_eq_some.1 h with ⟨⟨dv, bs7⟩, h7, h⟩
    dsimp only at h
    obtain ⟨hdv, hdvl, hbs7⟩ := readPairs_ok k [] bs6 hbs6 (by constructor <;> simp) h7
    rcases Option.bind_eq_some.1 h with ⟨⟨n, bs8⟩, h8, h⟩
    dsimp only at h
    obtain ⟨hn, hbs8⟩ := read_ushort_ok hbs7 h8
    rcases Option.bind_eq_some.1 h with ⟨⟨vs, bs9⟩, h9, h⟩
    simp only [Option.some.injEq, Prod.mk.injEq] at h
    obtain ⟨hvw, hvl, hbs9⟩ := readVariantList_ok n bs8 hbs8 h9
    obtain ⟨rfl, rfl⟩ := h
    have hdl2 : dv.length < 65536 := by simp at hdvl; omega
    have hvl2 : vs.length < 65536 := by omega
    exact ⟨⟨hnm, hpb, hfb, hmwf, hdv, hdl2, hvl2, hvw⟩, hbs9⟩

/-- The blend-mode code carried by a Pass, as an optional 16-bit value:
none exactly for the `Unspecified` sentinel. -/
def Pass.blendCode (p : Pass) : Option Nat :=
  match p.default_blend_mode with
  | BlendMode.Unspecified => none
  | BlendMode.mode c => some c

/-- Theorem: `Pass.write` emits exactly the layout of section 6 of the spec:
three length-prefixed strings, the blend-mode section (flag byte, and
the 16-bit code only when present), the counted `default_variant` pairs,
and the counted Variant records. -/
theorem pass_write_layout (p : Pass) :
    p.write =
      util.write_string p.name ++
        util.write_string p.supported_platforms.bits ++
        util.write_string p.fallback_pass ++
        blendSection p.blendCode ++
        util.write_ushort p.default_variant.length ++
        writePairs p.default_variant ++
        util.write_ushort p.variants.length ++
        writeVariantList p.variants := by
  cases hm : p.default_blend_mode with
  | Unspecified =>
    simp [Pass.write, Pass.blendCode, blendSection, hm,
      SupportedPlatforms.get_bit_string]
  | mode c =>
    have hb : (BlendMode.mode c != BlendMode.Unspecified) = true := by
      simp [bne_iff_ne]
    simp [Pass.write, Pass.blendCode, blendSection, hm,
      SupportedPlatforms.get_bit_string, BlendMode.value, hb]

/-- Reading back a written well-formed Pass on a fresh receiver restores
it exactly and consumes exactly its bytes. -/
theorem pass_write_read (p : Pass) (hp : p.WFbin) (rest : List Nat) :
    Pass.read Pass.init (p.write ++ rest) = some (p, rest) := by
  obtain ⟨hnm, hpb, hfb, hbl, hdv, hdvl, hvsl, hvs⟩ := hp
  have hblc : ∀ c, p.blendCode = some c → c < blendModeNames.length := by
    intro c hc
    cases hm : p.default_blend_mode with
    | Unspecified => rw [Pass.blendCode, hm] at hc; exact absurd hc (by simp)
    | mode c2 =>
      rw [Pass.blendCode, hm] at hc
      simp only [Option.some.injEq] at hc
      subst hc
      rw [hm] at hbl
      exact hbl
  have hlay := pass_read_layout Pass.init p.name p.supported_platforms.bits
    p.fallback_pass p.blendCode p.default_variant p.variants rest
    hnm.1 hpb.1 hfb.1 hblc hdv.2 hdv.1 hdvl hvs hvsl
  rw [pass_write_layout p]
  simp only [List.append_assoc] at hlay ⊢
  rw [hlay]
  obtain ⟨nm, sp, fb, bm, dv, vs⟩ := p
  obtain ⟨bits⟩ := sp
  cases bm with
  | Unspecified => rfl
  | mode c => rfl

/-! ### Claim theorems -/

/-- C1: Binary round-trip.  For any byte stream and any Pass `p` produced
from it by `Pass.read` (on a freshly constructed Pass, the codec's
canonical usage), writing `p`, reading the bytes back and writing again
reproduces the bytes exactly: `write(read(write(p))) == write(p)`
byte-for-byte; indeed the intermediate read consumes exactly the written
bytes. -/
theorem c1_binary_roundtrip (bs : List Nat) (hbs : BytesOk bs) (p : Pass)
    (rest : List Nat) (hr : Pass.read Pass.init bs = some (p, rest)) :
    ∃ q, Pass.read Pass.init p.write = some (q, []) ∧ q.write = p.write := by
  obtain ⟨hwf, -⟩ := pass_read_ok hbs (by decide) hr
  refine ⟨p, ?_, rfl⟩
  simpa using pass_write_read p hwf []

/-- C1 witness: the round-trip theorem applied to a concrete 11-byte
record (empty strings, no blend mode, no pairs, no variants). -/
theorem c1_binary_roundtrip_witness :
    ∃ q, Pass.read Pass.init Pass.init.write = some (q, []) ∧
      q.write = Pass.init.write :=
  c1_binary_roundtrip [0, 0, 0, 0, 0, 0, 0, 0, 0, 0, 0] (by decide)
    Pass.init [] (by decide)

/-- C3 counterexample: `Pass.read` on a receiver whose blend mode is set,
fed a record whose flag byte is false (the 7th byte, 0), leaves the blend
mode at its previous value `mode 0` — it does not become the
`Unspecified` sentinel as the claim states. -/
theorem c3_counterexample :
    Pass.read { Pass.init with default_blend_mode := BlendMode.mode 0 }
        [0, 0, 0, 0, 0, 0, 0, 0, 0, 0, 0] =
      some ({ Pass.init with default_blend_mode := BlendMode.mode 0 }, []) ∧
      BlendMode.mode 0 ≠ BlendMode.Unspecified := by
  constructor
  · decide
  · decide

/-- C3 (amended): `Pass.read` consumes the fields in the fixed order —
length-prefixed strings for name, platform bitset, fallback pass; one
boolean flag byte; exactly when the flag is true a 16-bit blend-mode code
resolved against the BlendMode table (when false no integer is consumed
and `default_blend_mode` retains the Pass's current value, which is the
`Unspecified` sentinel for a freshly constructed Pass); a 16-bit count
`K` followed by `K` key/value string pairs into `default_variant` in
order; a 16-bit count `N` followed by `N` Variant records in list
order. -/
theorem c3_read_field_order (self : Pass) (nm pb fb : Str) (blend : Option Nat)
    (dv : List (Str × Str)) (vs : List Variant) (rest : List Nat)
    (hnm : nm.length < 65536) (hpb : pb.length < 65536) (hfb : fb.length < 65536)
    (hbl : ∀ c, blend = some c → c < blendModeNames.length)
    (hdvn : (dv.map Prod.fst).Nodup)
    (hdvw : ∀ kv ∈ dv, StrWF kv.1 ∧ StrWF kv.2)
    (hdvl : dv.length < 65536)
    (hvs : ∀ v ∈ vs, v.WFbin) (hvsl : vs.length < 65536) :
    Pass.read self
      (util.write_string nm ++ util.write_string pb ++ util.write_string fb ++
        blendSection blend ++
        util.write_ushort dv.length ++ writePairs dv ++
        util.write_ushort vs.length ++ writeVariantList vs ++ rest) =
      some ({ name := nm, supported_platforms := ⟨pb⟩, fallback_pass := fb,
              default_blend_mode :=
                match blend with
                | some c => BlendMode.mode c
                | none => self.default_blend_mode,
              default_variant := dv, variants := vs }, rest) :=
  pass_read_layout self nm pb fb blend dv vs rest hnm hpb hfb hbl hdvn hdvw
    hdvl hvs hvsl

/-- A concrete variant used by witness instantiations. -/
def witVariant : Variant := { flags := [([120], [49])], shaders := [[7]], sourcePath := [] }

/-- C3 witness: the field-order theorem applied to a concrete record — a
receiver whose blend mode is `mode 5`, a one-byte name, a false flag, one
default pair and one variant; the decoded Pass keeps `mode 5`. -/
theorem c3_read_field_order_witness :
    Pass.read { Pass.init with default_blend_mode := BlendMode.mode 5 }
      (util.write_string [65] ++ util.write_string [48, 49] ++
        util.write_string [] ++ blendSection none ++
        util.write_ushort 1 ++ writePairs [([97], [48])] ++
        util.write_ushort 1 ++
        writeVariantList [witVariant] ++ [9]) =
      some ({ name := [65], supported_platforms := ⟨[48, 49]⟩,
              fallback_pass := [], default_blend_mode := BlendMode.mode 5,
              default_variant := [([97], [48])],
              variants := [witVariant] }, [9]) :=
  c3_read_field_order { Pass.init with default_blend_mode := BlendMode.mode 5 }
    [65] [48, 49] [] none [([97], [48])] [witVariant] [9]
    (by decide) (by decide) (by decide) (by intro c hc; cases hc)
    (by decide) (by decide) (by decide) (by decide) (by decide)

/-- C4: `Pass.write` emits the boolean presence flag exactly as
`default_blend_mode != Unspecified`, emits the 16-bit code section only
when that flag is true, and the emitted code is always the real mode's
own code — the sentinel is never serialized as a code (it has none:
`blendCode` is `none` exactly on the sentinel). -/
theorem c4_write_blend_presence (p : Pass) :
    p.write =
      util.write_string p.name ++ util.write_string p.supported_platforms.bits ++
        util.write_string p.fallback_pass ++
        util.write_bool (p.default_blend_mode != BlendMode.Unspecified) ++
        (match p.blendCode with
         | some c => util.write_ushort c
         | none => []) ++
        util.write_ushort p.default_variant.length ++
        writePairs p.default_variant ++
        util.write_ushort p.variants.length ++ writeVariantList p.variants ∧
    (p.blendCode = none ↔ p.default_blend_mode = BlendMode.Unspecified) ∧
    (∀ c, p.blendCode = some c → p.default_blend_mode = BlendMode.mode c) := by
  refine ⟨?_, ?_, ?_⟩
  · have := pass_write_layout p
    rw [this]
    cases hm : p.default_blend_mode with
    | Unspecified =>
      simp [Pass.blendCode, blendSection, hm, bne_iff_ne]
    | mode c =>
      have hb : (BlendMode.mode c != BlendMode.Unspecified) = true := by
        simp [bne_iff_ne]
      simp [Pass.blendCode, blendSection, hm, hb]
  · cases hm : p.default_blend_mode with
    | Unspecified => simp [Pass.blendCode, hm]
    | mode c => simp [Pass.blendCode, hm]
  · intro c hc
    cases hm : p.default_blend_mode with
    | Unspecified => rw [Pass.blendCode, hm] at hc; exact absurd hc (by simp)
    | mode c2 =>
      rw [Pass.blendCode, hm] at hc
      simp only [Option.some.injEq] at hc
      rw [hc]

/-- C4 witness: at a Pass with blend mode 2, the code section carries
code 2 and the presence conjuncts instantiate. -/
theorem c4_write_blend_presence_witness :
    ({ Pass.init with default_blend_mode := BlendMode.mode 2 } : Pass
      ).default_blend_mode = BlendMode.mode 2 :=
  (c4_write_blend_presence
    { Pass.init with default_blend_mode := BlendMode.mode 2 }).2.2 2 rfl

/-- Every name in the closed blend-mode table is a real, nonempty name. -/
theorem bmName_ne_nil {c : Nat} (h : c < blendModeNames.length) :
    (BlendMode.mode c).bmName ≠ [] := by
  rw [BlendMode.bmName]
  rw [List.get?_eq_get h]
  simp only [Option.getD_some]
  have hall : ∀ x ∈ blendModeNames, x ≠ [] := by decide
  exact hall _ (blendModeNames.get_mem c h)

/-- C5: tree-form blend mode.  `serialize_properties` emits the empty
string exactly when the mode is the `Unspecified` sentinel and the
symbolic name otherwise; `load` with a present-but-empty value resets to
the sentinel, with a present non-empty recognized name resolves it by
reverse lookup, and with a present non-empty unrecognized name fails
(`UnknownBlendModeError`). -/
theorem c5_blend_tree_codec :
    (∀ p : Pass, (Pass.serialize_properties p).default_blend_mode =
      some (if p.default_blend_mode = BlendMode.Unspecified then []
            else p.default_blend_mode.bmName)) ∧
    (∀ p : Pass, BlendWF p.default_blend_mode →
      ((Pass.serialize_properties p).default_blend_mode = some [] ↔
        p.default_blend_mode = BlendMode.Unspecified)) ∧
    (∀ (self : Pass) (t : PassTree) (path : Str) (q : Pass),
      t.default_blend_mode = some [] → Pass.load self t path = some q →
      q.default_blend_mode = BlendMode.Unspecified) ∧
    (∀ (self : Pass) (t : PassTree) (path s : Str) (m : BlendMode) (q : Pass),
      t.default_blend_mode = some s → s ≠ [] →
      BlendMode.fromName s = some m → Pass.load self t path = some q →
      q.default_blend_mode = m) ∧
    (∀ (self : Pass) (t : PassTree) (path s : Str),
      t.default_blend_mode = some s → s ≠ [] →
      BlendMode.fromName s = none → Pass.load self t path = none) := by
  refine ⟨?_, ?_, ?_, ?_, ?_⟩
  · intro p
    cases hm : p.default_blend_mode with
    | Unspecified => simp [Pass.serialize_properties, hm]
    | mode c =>
      have hb : (BlendMode.mode c != BlendMode.Unspecified) = true := by
        simp [bne_iff_ne]
      simp [Pass.serialize_properties, hm, hb]
  · intro p hwf
    cases hm : p.default_blend_mode with
    | Unspecified => simp [Pass.serialize_properties, hm]
    | mode c =>
      have hb : (BlendMode.mode c != BlendMode.Unspecified) = true := by
        simp [bne_iff_ne]
      rw [hm] at hwf
      simp [Pass.serialize_properties, hm, hb, bmName_ne_nil hwf]
  · intro self t path q hm h
    rw [Pass.load, hm] at h
    simp only [reduceIte, Option.bind_eq_bind, Option.some_bind,
      Option.some.injEq] at h
    subst h
    rfl
  · intro self t path s m q hm hs hf h
    rw [Pass.load, hm] at h
    simp only [if_neg hs, hf, Option.bind_eq_bind, Option.some_bind,
      Option.some.injEq] at h
    subst h
    rfl
  · intro self t path s hm hs hf
    rw [Pass.load, hm]
    simp only [if_neg hs, hf, Option.bind_eq_bind, Option.none_bind]

/-- C5 witness: the serialize direction at a Pass with blend mode 2, and
the three load directions at concrete trees: an empty value resets to the
sentinel, the recognized name at index 1 resolves to mode 1, and an
unknown name makes the load fail. -/
theorem c5_blend_tree_codec_witness :
    (Pass.serialize_properties
      { Pass.init with default_blend_mode := BlendMode.mode 2 }
      ).default_blend_mode = some (BlendMode.mode 2).bmName ∧
    Pass.init.default_blend_mode = BlendMode.Unspecified ∧
    ({ Pass.init with default_blend_mode := BlendMode.mode 1 } : Pass
      ).default_blend_mode = BlendMode.mode 1 ∧
    Pass.load Pass.init ({ default_blend_mode := some [200] } : PassTree)
      [] = none := by
  refine ⟨?_, ?_, ?_, ?_⟩
  · exact c5_blend_tree_codec.1
      { Pass.init with default_blend_mode := BlendMode.mode 2 }
  · exact c5_blend_tree_codec.2.2.1 Pass.init
      ({ default_blend_mode := some [] } : PassTree) [] Pass.init rfl
      (by decide)
  · exact c5_blend_tree_codec.2.2.2.1 Pass.init
      ({ default_blend_mode := some [66] } : PassTree) [] [66]
      (BlendMode.mode 1)
      { Pass.init with default_blend_mode := BlendMode.mode 1 }
      rfl (by decide) (by decide) (by decide)
  · exact c5_blend_tree_codec.2.2.2.2 Pass.init
      ({ default_blend_mode := some [200] } : PassTree) [] [200] rfl
      (by decide) (by decide)

/-- C6: defaulting on load.  Loading the empty tree `{}` into any Pass
returns it unchanged, and more generally every field whose key is absent
from the input tree keeps its current in-memory value. -/
theorem c6_load_defaulting :
    (∀ (p : Pass) (path : Str), Pass.load p PassTree.empty path = some p) ∧
    (∀ (p q : Pass) (t : PassTree) (path : Str), Pass.load p t path = some q →
      (t.name = none → q.name = p.name) ∧
      (t.supported_platforms = none →
        q.supported_platforms = p.supported_platforms) ∧
      (t.fallback_pass = none → q.fallback_pass = p.fallback_pass) ∧
      (t.default_blend_mode = none →
        q.default_blend_mode = p.default_blend_mode) ∧
      (t.default_variant = none → q.default_variant = p.default_variant) ∧
      (t.variants = none → q.variants = p.variants)) := by
  constructor
  · intro p path
    rw [Pass.load]
    simp only [PassTree.empty, Option.getD_none, Option.bind_eq_bind,
      Option.some_bind]
    rfl
  · intro p q t path h
    rw [Pass.load] at h
    have main : ∀ blend, q =
        { name := t.name.getD p.name,
          supported_platforms :=
            p.supported_platforms.load (t.supported_platforms.getD []),
          fallback_pass := t.fallback_pass.getD p.fallback_pass,
          default_blend_mode := blend,
          default_variant := t.default_variant.getD p.default_variant,
          variants :=
            match t.variants with
            | none => p.variants
            | some ts =>
                ts.map (fun vt =>
                  Variant.load vt (pathJoin path (t.name.getD p.name))) } →
        (t.name = none → q.name = p.name) ∧
        (t.supported_platforms = none →
          q.supported_platforms = p.supported_platforms) ∧
        (t.fallback_pass = none → q.fallback_pass = p.fallback_pass) ∧
        (t.default_blend_mode = none → blend = p.default_blend_mode →
          q.default_blend_mode = p.default_blend_mode) ∧
        (t.default_variant = none → q.default_variant = p.default_variant) ∧
        (t.variants = none → q.variants = p.variants) := by
      intro blend hq
      subst hq
      refine ⟨?_, ?_, ?_, ?_, ?_, ?_⟩
      · intro hn; simp [hn]
      · intro hsp
        simp only [hsp, Option.getD_none]
        rfl
      · intro hf; simp [hf]
      · intro _ hb; simpa using hb
      · intro hd; simp [hd]
      · intro hv; simp [hv]
    cases hm : t.default_blend_mode with
    | none =>
      rw [hm] at h
      dsimp only at h
      simp only [Option.bind_eq_bind, Option.some_bind, Option.some.injEq] at h
      have := main p.default_blend_mode h.symm
      exact ⟨this.1, this.2.1, this.2.2.1, fun _ => this.2.2.2.1 hm rfl,
        this.2.2.2.2⟩
    | some s =>
      rw [hm] at h
      dsimp only at h
      by_cases hs : s = []
      · subst hs
        simp only [reduceIte, Option.bind_eq_bind, Option.some_bind,
          Option.some.injEq] at h
        have := main BlendMode.Unspecified h.symm
        exact ⟨this.1, this.2.1, this.2.2.1,
          fun hb => absurd hb (by simp), this.2.2.2.2⟩
      · rw [if_neg hs] at h
        cases hf : BlendMode.fromName s with
        | none =>
          rw [hf] at h
          exact absurd h (by simp)
        | some m =>
          rw [hf] at h
          simp only [Option.bind_eq_bind, Option.some_bind,
            Option.some.injEq] at h
          have := main m h.symm
          exact ⟨this.1, this.2.1, this.2.2.1,
            fun hb => absurd hb (by simp), this.2.2.2.2⟩

/-- A populated Pass used to witness the load-defaulting claim. -/
def witPass : Pass where
  name := [65, 66]
  supported_platforms := ⟨[48, 49]⟩
  fallback_pass := [70]
  default_blend_mode := BlendMode.mode 4
  default_variant := [([97], [48])]
  variants := [witVariant]

/-- C6 witness: loading `{}` into a concrete fully populated Pass returns
it unchanged, and the per-field conjuncts instantiate on it. -/
theorem c6_load_defaulting_witness :
    Pass.load witPass PassTree.empty [112] = some witPass ∧
    witPass.name = witPass.name := by
  constructor
  · exact c6_load_defaulting.1 witPass [112]
  · exact (c6_load_defaulting.2 witPass witPass PassTree.empty [112]
      (c6_load_defaulting.1 witPass [112])).1 rfl

/-- C10: in `load`, the `name` field is assigned from the tree before the
variants are loaded, so when the tree holds both a new name and a
variants list, every variant is loaded with base path `path/<new name>`,
not the Pass's previous name. -/
theorem c10_load_variant_path (self : Pass) (t : PassTree) (path n : Str)
    (ts : List VariantTree) (q : Pass)
    (hn : t.name = some n) (hv : t.variants = some ts)
    (hl : Pass.load self t path = some q) :
    q.variants = ts.map (fun vt => Variant.load vt (pathJoin path n)) := by
  rw [Pass.load, hn, hv] at hl
  cases hm : t.default_blend_mode with
  | none =>
    rw [hm] at hl
    dsimp only at hl
    simp only [Option.bind_eq_bind, Option.some_bind, Option.some.injEq] at hl
    subst hl
    simp
  | some s =>
    rw [hm] at hl
    dsimp only at hl
    by_cases hs : s = []
    · subst hs
      simp only [reduceIte, Option.bind_eq_bind, Option.some_bind,
        Option.some.injEq] at hl
      subst hl
      simp
    · rw [if_neg hs] at hl
      cases hf : BlendMode.fromName s with
      | none => rw [hf] at hl; exact absurd hl (by simp)
      | some m =>
        rw [hf] at hl
        simp only [Option.bind_eq_bind, Option.some_bind,
          Option.some.injEq] at hl
        subst hl
        simp

/-- A variant tree used by the C10 witness. -/
def witVariantTree : VariantTree := { flags := [([120], [50])], index := 0 }

/-- A tree carrying a new name and a variants list, for the C10
witness. -/
def witTree10 : PassTree :=
  { name := some [78], variants := some [witVariantTree] }

/-- The Pass that loading `witTree10` into `witPass` produces. -/
def witPass10 : Pass where
  name := [78]
  supported_platforms := witPass.supported_platforms
  fallback_pass := witPass.fallback_pass
  default_blend_mode := witPass.default_blend_mode
  default_variant := witPass.default_variant
  variants := [Variant.load witVariantTree (pathJoin [112] [78])]

/-- C10 witness: loading a tree with new name `[78]` and one variant into
a Pass previously named `[65, 66]` loads the variant with base path
`[112]/[78]` — built from the tree's name. -/
theorem c10_load_variant_path_witness :
    witPass10.variants =
      [witVariantTree].map (fun vt => Variant.load vt (pathJoin [112] [78])) :=
  c10_load_variant_path witPass witTree10 [112] [78] [witVariantTree]
    witPass10 rfl rfl (by decide)

/-- C9: `merge_variants` touches only the variants list; name, platform
bitset, fallback pass, blend mode, and default variant of the receiver
are untouched whatever `other` holds. -/
theorem c9_merge_variants_frame (self other : Pass) :
    (self.merge_variants other).name = self.name ∧
    (self.merge_variants other).supported_platforms =
      self.supported_platforms ∧
    (self.merge_variants other).fallback_pass = self.fallback_pass ∧
    (self.merge_variants other).default_blend_mode =
      self.default_blend_mode ∧
    (self.merge_variants other).default_variant = self.default_variant :=
  ⟨rfl, rfl, rfl, rfl, rfl⟩

/-- Merging a variant whose flags match nothing in the list appends it. -/
theorem mergeOne_no_match :
    ∀ (vs : List Variant) (ov : Variant),
      (∀ v ∈ vs, dictEq v.flags ov.flags = false) →
      mergeOne vs ov = vs ++ [ov]
  | [], ov, _ => rfl
  | v :: vs, ov, h => by
    rw [mergeOne]
    rw [if_neg (by simp [h v (by simp)])]
    rw [mergeOne_no_match vs ov (fun x hx => h x (by simp [hx]))]
    simp

/-- Lemma: `merge_variant` keeps the receiving variant's flags. -/
theorem merge_variant_flags (v w : Variant) :
    (v.merge_variant w).flags = v.flags := rfl

/-- Folding `mergeOne` over variants none of which match appends them
all, in order (pairwise-distinct flags keep an appended variant from
absorbing a later one). -/
theorem foldl_mergeOne_no_match :
    ∀ (ovs vs : List Variant),
      (∀ ov ∈ ovs, ∀ v ∈ vs, dictEq v.flags ov.flags = false) →
      ovs.Pairwise (fun a b => dictEq a.flags b.flags = false) →
      List.foldl mergeOne vs ovs = vs ++ ovs
  | [], vs, _, _ => by simp
  | ov :: ovs, vs, hno, hpw => by
    have hno2 : ∀ ov2 ∈ ovs, ∀ v ∈ vs ++ [ov], dictEq v.flags ov2.flags = false := by
      intro ov2 hov2 v hv
      rcases List.mem_append.1 hv with hv1 | hv1
      · exact hno ov2 (by simp [hov2]) v hv1
      · simp only [List.mem_singleton] at hv1
        subst hv1
        exact (List.pairwise_cons.1 hpw).1 ov2 hov2
    simp only [List.foldl_cons]
    rw [mergeOne_no_match vs ov (fun v hv => hno ov (by simp) v hv)]
    rw [foldl_mergeOne_no_match ovs (vs ++ [ov]) hno2 (List.Pairwise.of_cons hpw)]
    simp

/-- The flags dicts of the variants that a `merge_variants` run appends,
in `other`'s order: a variant is appended exactly when its flags dict
equals none already seen (`self`'s variants' flags, or a previously
appended one), and an appended variant's flags enter the seen list.
Flags are static through the run, since merging keeps the matched
variant's flags and appending keeps the appended variant's flags. -/
def appendedFlags (seen : List (List (Str × Str))) :
    List Variant → List (List (Str × Str))
  | [] => []
  | ov :: ovs =>
      if seen.any (fun f => dictEq f ov.flags) then appendedFlags seen ovs
      else ov.flags :: appendedFlags (seen ++ [ov.flags]) ovs

/-- Lemma: one merge step at the flags level — a matched variant leaves
the flags list unchanged, an unmatched one appends its flags. -/
theorem mergeOne_flags :
    ∀ (vs : List Variant) (ov : Variant),
      (mergeOne vs ov).map Variant.flags =
        if (vs.map Variant.flags).any (fun f => dictEq f ov.flags) then
          vs.map Variant.flags
        else vs.map Variant.flags ++ [ov.flags]
  | [], ov => by simp [mergeOne]
  | v :: vs, ov => by
    rw [mergeOne]
    by_cases hd : dictEq v.flags ov.flags = true
    · simp [hd, merge_variant_flags]
    · simp only [Bool.not_eq_true] at hd
      rw [hd]
      simp only [Bool.false_eq_true, if_false, List.map_cons, List.any_cons,
        hd, Bool.false_or]
      rw [mergeOne_flags vs ov]
      by_cases ha : ((vs.map Variant.flags).any fun f => dictEq f ov.flags) = true
      · rw [if_pos ha, if_pos ha]
      · rw [if_neg ha, if_neg ha]
        simp

/-- Lemma: the whole merge loop at the flags level. -/
theorem foldl_mergeOne_flags :
    ∀ (ovs : List Variant) (vs : List Variant),
      (List.foldl mergeOne vs ovs).map Variant.flags =
        vs.map Variant.flags ++ appendedFlags (vs.map Variant.flags) ovs
  | [], vs => by simp [appendedFlags]
  | ov :: ovs, vs => by
    rw [List.foldl_cons, foldl_mergeOne_flags ovs (mergeOne vs ov),
      mergeOne_flags vs ov, appendedFlags]
    by_cases ha : (vs.map Variant.flags).any (fun f => dictEq f ov.flags) = true
    · rw [if_pos ha, if_pos ha]
    · simp only [Bool.not_eq_true] at ha
      rw [if_neg (by simp [ha]), if_neg (by simp [ha])]
      simp

/-- Lemma: a merge step whose first flag-equal variant sits at index `i`
merges there in place — delegation to that variant's own `merge_variant`
— and every other position is untouched. -/
theorem mergeOne_first_match :
    ∀ (vs : List Variant) (ov : Variant) (i : Nat) (hi : i < vs.length),
      dictEq (vs.get ⟨i, hi⟩).flags ov.flags = true →
      (∀ j (hj : j < i),
        dictEq (vs.get ⟨j, Nat.lt_trans hj hi⟩).flags ov.flags = false) →
      mergeOne vs ov = vs.set i ((vs.get ⟨i, hi⟩).merge_variant ov)
  | [], ov, i, hi, _, _ => absurd hi (by simp)
  | v :: vs, ov, 0, hi, hm, _ => by
    simp only [List.get] at hm
    rw [mergeOne, if_pos hm]
    rfl
  | v :: vs, ov, i + 1, hi, hm, hno => by
    have h0 : dictEq v.flags ov.flags = false := hno 0 (Nat.succ_pos i)
    rw [mergeOne, if_neg (by simp [h0])]
    have hi2 : i < vs.length := Nat.lt_of_succ_lt_succ hi
    rw [mergeOne_first_match vs ov i hi2 hm
      (fun j hj => hno (j + 1) (Nat.succ_lt_succ hj))]
    rfl

/-- C2: `merge_variants`.  First conjunct: `other`'s variants are
processed one at a time, in `other`'s order, each step being `mergeOne`.
Second conjunct: a step whose first flag-equal variant of the current
list sits at any index `i` delegates to that variant's own
`merge_variant` in place (no duplicate is added) and every other
position keeps its variant.  Third conjunct: a step matching nothing
appends the other variant unchanged at the end.  Fourth conjunct: for
every pair of passes — any mix of matched and unmatched variants — the
flags of the result are exactly `self`'s variants' flags, in their
original positions, followed by the flags of the appended variants in
`other`'s order.  Fifth conjunct: when nothing in `other` matches
anything (and `other`'s variants are pairwise flag-distinct), the
result is literally `self.variants ++ other.variants`.  Sixth conjunct:
the spec's example — `A` with `[{x:1}]`, `B` with `[{x:1}, {x:2}]` —
yields `{x:1}` merged (not duplicated) and `{x:2}` appended. -/
theorem c2_merge_variants :
    (∀ (self other : Pass) (ov : Variant) (ovs : List Variant),
      other.variants = ov :: ovs →
      (self.merge_variants other).variants =
        (Pass.merge_variants { self with variants := mergeOne self.variants ov }
          { other with variants := ovs }).variants) ∧
    (∀ (vs : List Variant) (ov : Variant) (i : Nat) (hi : i < vs.length),
      dictEq (vs.get ⟨i, hi⟩).flags ov.flags = true →
      (∀ j (hj : j < i),
        dictEq (vs.get ⟨j, Nat.lt_trans hj hi⟩).flags ov.flags = false) →
      mergeOne vs ov = vs.set i ((vs.get ⟨i, hi⟩).merge_variant ov)) ∧
    (∀ (vs : List Variant) (ov : Variant),
      (∀ v ∈ vs, dictEq v.flags ov.flags = false) →
      mergeOne vs ov = vs ++ [ov]) ∧
    (∀ (self other : Pass),
      (self.merge_variants other).variants.map Variant.flags =
        self.variants.map Variant.flags ++
          appendedFlags (self.variants.map Variant.flags) other.variants) ∧
    (∀ (self other : Pass),
      (∀ ov ∈ other.variants, ∀ v ∈ self.variants,
        dictEq v.flags ov.flags = false) →
      other.variants.Pairwise (fun a b => dictEq a.flags b.flags = false) →
      (self.merge_variants other).variants =
        self.variants ++ other.variants) ∧
    (∀ (A B : Pass) (v1 v1o v2 : Variant),
      A.variants = [v1] → B.variants = [v1o, v2] →
      dictEq v1.flags v1o.flags = true → dictEq v1.flags v2.flags = false →
      (A.merge_variants B).variants = [v1.merge_variant v1o, v2]) := by
  refine ⟨?_, mergeOne_first_match, mergeOne_no_match, ?_, ?_, ?_⟩
  · intro self other ov ovs hB
    show List.foldl mergeOne self.variants other.variants =
      List.foldl mergeOne (mergeOne self.variants ov) ovs
    rw [hB, List.foldl_cons]
  · intro self other
    show (List.foldl mergeOne self.variants other.variants).map Variant.flags = _
    exact foldl_mergeOne_flags other.variants self.variants
  · intro self other hno hpw
    show List.foldl mergeOne self.variants other.variants =
      self.variants ++ other.variants
    exact foldl_mergeOne_no_match other.variants self.variants hno hpw
  · intro A B v1 v1o v2 hA hB hm hnm
    rw [Pass.merge_variants, hA, hB]
    simp only [List.foldl_cons, List.foldl_nil]
    rw [mergeOne, if_pos hm]
    rw [mergeOne, if_neg (by rw [merge_variant_flags]; simp [hnm])]
    rw [mergeOne]

/-- Variants for the C2 witness: same flags `x = 1` with different
shaders, and a distinct-flag variant `x = 2`. -/
def witVariantB1 : Variant :=
  { flags := [([120], [49])], shaders := [[8]], sourcePath := [] }

/-- The fresh variant `x = 2` of the C2 witness. -/
def witVariantB2 : Variant :=
  { flags := [([120], [50])], shaders := [[9]], sourcePath := [] }

/-- The Pass `A` of the C2 witness, holding one variant `x = 1`. -/
def witPassA : Pass := { Pass.init with variants := [witVariant] }

/-- The Pass `B` of the C2 witness, holding `x = 1` and `x = 2`. -/
def witPassB : Pass :=
  { Pass.init with variants := [witVariantB1, witVariantB2] }

/-- A two-variant list whose second variant matches `witVariantB1`, to
witness an in-place merge at a nonzero index. -/
def witVs2 : List Variant := [witVariantB2, witVariant]

/-- C2 witness: the conjuncts applied at concrete inputs — one
sequential step peeled off a mixed run, an in-place merge at index 1,
an append when nothing matches, the flags-level shape for the mixed
example passes, and the spec example itself. -/
theorem c2_merge_variants_witness :
    (witPassA.merge_variants witPassB).variants =
      (Pass.merge_variants
        { witPassA with variants := mergeOne witPassA.variants witVariantB1 }
        { witPassB with variants := [witVariantB2] }).variants ∧
    mergeOne witVs2 witVariantB1 =
      witVs2.set 1 ((witVs2.get ⟨1, by decide⟩).merge_variant witVariantB1) ∧
    mergeOne [witVariant] witVariantB2 = [witVariant, witVariantB2] ∧
    (witPassA.merge_variants witPassB).variants.map Variant.flags =
      witPassA.variants.map Variant.flags ++
        appendedFlags (witPassA.variants.map Variant.flags)
          witPassB.variants ∧
    (witPassA.merge_variants witPassB).variants =
      [witVariant.merge_variant witVariantB1, witVariantB2] := by
  refine ⟨?_, ?_, ?_, ?_, ?_⟩
  · exact c2_merge_variants.1 witPassA witPassB witVariantB1 [witVariantB2] rfl
  · exact c2_merge_variants.2.1 witVs2 witVariantB1 1 (by decide) (by decide)
      (by decide)
  · exact c2_merge_variants.2.2.1 [witVariant] witVariantB2 (by decide)
  · exact c2_merge_variants.2.2.2.1 witPassA witPassB
  · exact c2_merge_variants.2.2.2.2.2 witPassA witPassB witVariant witVariantB1
      witVariantB2 rfl rfl (by decide) (by decide)

/-! ### The sort relations are total preorders -/

theorem strLe_total : ∀ a b : Str, strLe a b = true ∨ strLe b a = true
  | [], _ => Or.inl rfl
  | _ :: _, [] => Or.inr rfl
  | a :: as, b :: bs => by
    rw [strLe, strLe]
    rcases Nat.lt_trichotomy a b with h | h | h
    · left; simp [h]
    · subst h
      simp only [Nat.lt_irrefl, if_false, if_pos rfl]
      exact strLe_total as bs
    · right; simp [h]

theorem strLe_trans :
    ∀ {a b c : Str}, strLe a b = true → strLe b c = true → strLe a c = true
  | [], _, _, _, _ => rfl
  | _ :: _, [], _, hab, _ => by cases hab
  | _ :: _, _ :: _, [], _, hbc => by cases hbc
  | a :: as, b :: bs, c :: cs, hab, hbc => by
    rw [strLe] at hab hbc ⊢
    by_cases h1 : a < b
    · by_cases h2 : b < c
      · rw [if_pos (by omega)]
      · simp only [if_neg h2] at hbc
        by_cases h3 : b = c
        · subst h3; rw [if_pos h1]
        · simp only [if_neg h3] at hbc; cases hbc
    · simp only [if_neg h1] at hab
      by_cases h2 : a = b
      · subst h2
        simp only [if_pos rfl] at hab
        by_cases h3 : a < c
        · rw [if_pos h3]
        · simp only [if_neg h3] at hbc ⊢
          by_cases h4 : a = c
          · subst h4
            simp only [if_pos rfl] at hbc ⊢
            exact strLe_trans hab hbc
          · simp only [if_neg h4] at hbc; cases hbc
      · simp only [if_neg h2] at hab; cases hab

theorem strLe_antisymm :
    ∀ {a b : Str}, strLe a b = true → strLe b a = true → a = b
  | [], [], _, _ => rfl
  | [], _ :: _, _, hba => by cases hba
  | _ :: _, [], hab, _ => by cases hab
  | a :: as, b :: bs, hab, hba => by
    rw [strLe] at hab hba
    by_cases h1 : a < b
    · simp only [if_neg (by omega : ¬b < a),
        if_neg (by omega : ¬b = a)] at hba
      cases hba
    · by_cases h2 : a = b
      · subst h2
        simp only [if_neg h1, if_pos rfl] at hab hba
        rw [strLe_antisymm hab hba]
      · simp only [if_neg h1, if_neg h2] at hab; cases hab

instance : IsTotal (Str × Str) pairLeR where
  total p q := by
    rw [pairLeR, pairLeR, pairLe, pairLe]
    by_cases h : p.1 = q.1
    · rw [if_pos h, if_pos h.symm]
      exact strLe_total p.2 q.2
    · rw [if_neg h, if_neg (fun hh => h hh.symm)]
      exact strLe_total p.1 q.1

instance : IsTrans (Str × Str) pairLeR where
  trans p q r := by
    rw [pairLeR, pairLeR, pairLeR, pairLe, pairLe, pairLe]
    intro hpq hqr
    by_cases h1 : p.1 = q.1
    · rw [if_pos h1] at hpq
      by_cases h2 : q.1 = r.1
      · rw [if_pos h2] at hqr
        rw [if_pos (h1.trans h2)]
        exact strLe_trans hpq hqr
      · rw [if_neg h2] at hqr
        rw [if_neg (fun hh => h2 (h1.symm.trans hh)), h1]
        exact hqr
    · rw [if_neg h1] at hpq
      by_cases h2 : q.1 = r.1
      · rw [if_neg (fun hh => h1 (hh.trans h2.symm)), ← h2]
        exact hpq
      · rw [if_neg h2] at hqr
        have h3 : p.1 ≠ r.1 := by
          intro hh
          exact h1 (strLe_antisymm hpq (hh ▸ hqr))
        rw [if_neg h3]
        exact strLe_trans hpq hqr

instance : IsTotal Variant variantLeR where
  total v w := strLe_total (flagsStr v.flags) (flagsStr w.flags)

instance : IsTrans Variant variantLeR where
  trans _ _ _ hvw hwx := strLe_trans hvw hwx

/-- Sorting an already key-sorted dict again changes nothing. -/
theorem sortPairs_idem (d : List (Str × Str)) :
    sortPairs (sortPairs d) = sortPairs d :=
  List.Sorted.insertionSort_eq (List.sorted_insertionSort pairLeR d)

/-- Sorting a variant's flags twice equals sorting once. -/
theorem sortFlags_idem (v : Variant) : sortFlags (sortFlags v) = sortFlags v := by
  rw [sortFlags, sortFlags]
  simp [sortPairs_idem]

/-- C7: `sort_variants` is idempotent — a second application changes
neither the key-sorted `default_variant`, nor any variant's key-sorted
flags, nor the variant list ordered by the string form of the flags
(insertion sort, like Python's stable `list.sort`, leaves a sorted list
unchanged). -/
theorem c7_sort_variants_idempotent (p : Pass) :
    p.sort_variants.sort_variants = p.sort_variants := by
  have hmap :
      (List.insertionSort variantLeR (p.variants.map sortFlags)).map sortFlags =
        List.insertionSort variantLeR (p.variants.map sortFlags) := by
    have hfix : ∀ v ∈ List.insertionSort variantLeR (p.variants.map sortFlags),
        sortFlags v = v := by
      intro v hv
      rw [List.mem_insertionSort] at hv
      obtain ⟨w, -, rfl⟩ := List.mem_map.1 hv
      exact sortFlags_idem w
    calc (List.insertionSort variantLeR (p.variants.map sortFlags)).map sortFlags
        = (List.insertionSort variantLeR (p.variants.map sortFlags)).map id :=
          List.map_congr_left hfix
      _ = _ := List.map_id _
  have hsort :
      List.insertionSort variantLeR
          (List.insertionSort variantLeR (p.variants.map sortFlags)) =
        List.insertionSort variantLeR (p.variants.map sortFlags) :=
    List.Sorted.insertionSort_eq
      (List.sorted_insertionSort variantLeR (p.variants.map sortFlags))
  simp only [Pass.sort_variants, hmap, hsort, sortPairs_idem]

/-- First-match lookup in an association list (Python dict access). -/
def dictFind (k : Str) : List (Str × Finset Str) → Option (Finset Str)
  | [] => none
  | d :: ds => if d.1 = k then some d.2 else dictFind k ds

/-- A value is recorded for a key in the definitions dict. -/
def MemDef (ds : List (Str × Finset Str)) (k v : Str) : Prop :=
  ∃ S, dictFind k ds = some S ∧ v ∈ S

theorem dictFind_none_iff (k : Str) :
    ∀ ds : List (Str × Finset Str),
      dictFind k ds = none ↔ k ∉ ds.map Prod.fst
  | [] => by simp [dictFind]
  | d :: ds => by
    rw [dictFind]
    by_cases h : d.1 = k
    · simp [h]
    · simp only [List.map_cons, List.mem_cons, if_neg h]
      rw [dictFind_none_iff k ds]
      constructor
      · intro hn hc
        rcases hc with hc | hc
        · exact h hc.symm
        · exact hn hc
      · intro hn
        exact fun hc => hn (Or.inr hc)

theorem dictFind_update_self (k : Str) (v : Str) :
    ∀ ds : List (Str × Finset Str),
      dictFind k (ds.map (fun d => if d.1 = k then (d.1, insert v d.2) else d)) =
        (dictFind k ds).map (fun S => insert v S)
  | [] => rfl
  | d :: ds => by
    by_cases hd : d.1 = k
    · simp [dictFind, hd]
    · simp only [List.map_cons, if_neg hd, dictFind, if_neg hd]
      exact dictFind_update_self k v ds

theorem dictFind_update_other {k k2 : Str} (hk : k2 ≠ k) (v : Str) :
    ∀ ds : List (Str × Finset Str),
      dictFind k2 (ds.map (fun d => if d.1 = k then (d.1, insert v d.2) else d)) =
        dictFind k2 ds
  | [] => rfl
  | d :: ds => by
    by_cases hd : d.1 = k
    · have hd2 : d.1 ≠ k2 := fun hh => hk ((hh.symm.trans hd))
      simp only [List.map_cons, if_pos hd, dictFind, if_neg hd2]
      exact dictFind_update_other hk v ds
    · simp only [List.map_cons, if_neg hd, dictFind]
      by_cases hd2 : d.1 = k2
      · simp [hd2]
      · simp only [if_neg hd2]
        exact dictFind_update_other hk v ds

theorem dictFind_append_one (k k2 : Str) (S : Finset Str) :
    ∀ ds : List (Str × Finset Str),
      dictFind k2 (ds ++ [(k, S)]) =
        match dictFind k2 ds with
        | some S0 => some S0
        | none => if k = k2 then some S else none
  | [] => rfl
  | d :: ds => by
    by_cases hd : d.1 = k2
    · simp [dictFind, hd]
    · simp only [List.cons_append, dictFind, if_neg hd]
      exact dictFind_append_one k k2 S ds

/-- One `addDef` step records exactly the new (key, value) observation on
top of what was already recorded. -/
theorem addDef_memDef (ds : List (Str × Finset Str)) (k v k2 v2 : Str) :
    MemDef (addDef ds k v) k2 v2 ↔
      (k2 = k ∧ v2 = v) ∨ MemDef ds k2 v2 := by
  rw [addDef]
  by_cases hc : (ds.map Prod.fst).contains k
  · rw [if_pos hc]
    by_cases hk : k2 = k
    · subst hk
      rw [MemDef, MemDef, dictFind_update_self k2 v ds]
      cases hfind : dictFind k2 ds with
      | none =>
        exact absurd ((dictFind_none_iff k2 ds).1 hfind)
          (fun hn => hn (by simpa [List.elem_iff] using hc))
      | some S =>
        simp only [Option.map_some']
        constructor
        · rintro ⟨S2, hS2, hv⟩
          simp only [Option.some.injEq] at hS2
          subst hS2
          rcases Finset.mem_insert.1 hv with h | h
          · exact Or.inl ⟨by trivial, h⟩
          · exact Or.inr ⟨S, rfl, h⟩
        · rintro (⟨-, rfl⟩ | ⟨S2, hS2, hv⟩)
          · exact ⟨insert v2 S, rfl, Finset.mem_insert_self v2 S⟩
          · simp only [Option.some.injEq] at hS2
            subst hS2
            exact ⟨insert v S, rfl, Finset.mem_insert_of_mem hv⟩
    · rw [MemDef, MemDef, dictFind_update_other hk v ds]
      constructor
      · exact Or.inr
      · rintro (⟨hkk, -⟩ | h)
        · exact absurd hkk hk
        · exact h
  · rw [if_neg hc]
    have hnone : dictFind k ds = none :=
      (dictFind_none_iff k ds).2 (by simpa [List.elem_iff] using hc)
    rw [MemDef, MemDef, dictFind_append_one k k2 {v} ds]
    by_cases hk : k2 = k
    · subst hk
      rw [hnone]
      dsimp only
      rw [if_pos rfl]
      simp [Finset.mem_singleton]
    · cases hfind : dictFind k2 ds with
      | some S =>
        constructor
        · exact Or.inr
        · rintro (⟨hkk, -⟩ | h)
          · exact absurd hkk hk
          · exact h
      | none =>
        rw [if_neg (fun hh => hk hh.symm)]
        constructor
        · rintro ⟨S, hS, -⟩; cases hS
        · rintro (⟨hkk, -⟩ | ⟨S, hS, -⟩)
          · exact absurd hkk hk
          · cases hS

/-- Folding one variant's flag pairs into the definitions records exactly
those pairs on top of what was there. -/
theorem foldl_addDef_memDef :
    ∀ (l : List (Str × Str)) (ds : List (Str × Finset Str)) (k v : Str),
      MemDef (l.foldl (fun ds kv => addDef ds kv.1 kv.2) ds) k v ↔
        (k, v) ∈ l ∨ MemDef ds k v
  | [], ds, k, v => by simp
  | kv :: l, ds, k, v => by
    rw [List.foldl_cons]
    rw [foldl_addDef_memDef l (addDef ds kv.1 kv.2) k v]
    rw [addDef_memDef ds kv.1 kv.2 k v]
    constructor
    · rintro (h | ⟨h1, h2⟩ | h)
      · exact Or.inl (by simp [h])
      · subst h1; subst h2
        exact Or.inl (by simp)
      · exact Or.inr h
    · rintro (h | h)
      · rcases List.mem_cons.1 h with h1 | h1
        · exact Or.inr (Or.inl ⟨congrArg Prod.fst h1, congrArg Prod.snd h1⟩)
        · exact Or.inl h1
      · exact Or.inr (Or.inr h)

/-- Folding a list of variants into the definitions records exactly each
variant's flag pairs on top of what was there. -/
theorem foldl_variants_memDef :
    ∀ (vs : List Variant) (ds : List (Str × Finset Str)) (k v : Str),
      MemDef (vs.foldl
        (fun ds w => w.flags.foldl (fun ds kv => addDef ds kv.1 kv.2) ds) ds)
        k v ↔
        (∃ w ∈ vs, (k, v) ∈ w.flags) ∨ MemDef ds k v
  | [], ds, k, v => by simp
  | w :: vs, ds, k, v => by
    rw [List.foldl_cons]
    rw [foldl_variants_memDef vs _ k v]
    rw [foldl_addDef_memDef w.flags ds k v]
    constructor
    · rintro (⟨w2, hw2, hkv⟩ | h | h)
      · exact Or.inl ⟨w2, by simp [hw2], hkv⟩
      · exact Or.inl ⟨w, by simp, h⟩
      · exact Or.inr h
    · rintro (⟨w2, hw2, hkv⟩ | h)
      · rcases List.mem_cons.1 hw2 with h1 | h1
        · subst h1
          exact Or.inr (Or.inl hkv)
        · exact Or.inl ⟨w2, h1, hkv⟩
      · exact Or.inr (Or.inr h)

/-- The seed built from `default_variant` records exactly its pairs,
provided its keys are unique (they are: it is a Python dict). -/
theorem seed_memDef :
    ∀ (dv : List (Str × Str)), (dv.map Prod.fst).Nodup →
      ∀ k v, MemDef (dv.map (fun kv => (kv.1, ({kv.2} : Finset Str)))) k v ↔
        (k, v) ∈ dv
  | [], _, k, v => by simp [MemDef, dictFind]
  | kv :: dv, hnd, k, v => by
    simp only [List.map_cons, List.nodup_cons] at hnd
    simp only [List.map_cons]
    by_cases hk : kv.1 = k
    · constructor
      · rintro ⟨S, hS, hv⟩
        rw [dictFind, if_pos hk] at hS
        simp only [Option.some.injEq] at hS
        subst hS
        rw [Finset.mem_singleton] at hv
        exact List.mem_cons.2 (Or.inl (Prod.ext hk.symm hv))
      · intro hmem
        rcases List.mem_cons.1 hmem with h1 | h1
        · refine ⟨{kv.2}, by rw [dictFind, if_pos hk], ?_⟩
          rw [Finset.mem_singleton]
          exact congrArg Prod.snd h1
        · exact absurd (List.mem_map.2 ⟨(k, v), h1, rfl⟩) (hk ▸ hnd.1)
    · have heq : MemDef ((kv.1, ({kv.2} : Finset Str)) ::
          dv.map (fun kv => (kv.1, ({kv.2} : Finset Str)))) k v ↔
          MemDef (dv.map (fun kv => (kv.1, ({kv.2} : Finset Str)))) k v := by
        rw [MemDef, MemDef, dictFind, if_neg hk]
      rw [heq, seed_memDef dv hnd.2 k v]
      constructor
      · exact fun h => List.mem_cons.2 (Or.inr h)
      · intro hmem
        rcases List.mem_cons.1 hmem with h1 | h1
        · exact absurd (congrArg Prod.fst h1.symm) hk
        · exact h1

/-- C8: `get_flag_definitions` records, for every flag key, exactly the
set of values that key takes across the Pass: a value is in the set found
for `k` precisely when `(k, v)` appears in `default_variant` (which seeds
its keys with singletons) or in some variant's flags. -/
theorem c8_get_flag_definitions (p : Pass)
    (hd : (p.default_variant.map Prod.fst).Nodup) (k v : Str) :
    MemDef p.get_flag_definitions k v ↔
      ((k, v) ∈ p.default_variant ∨ ∃ w ∈ p.variants, (k, v) ∈ w.flags) := by
  rw [Pass.get_flag_definitions]
  rw [foldl_variants_memDef p.variants _ k v]
  rw [seed_memDef p.default_variant hd k v]
  exact Or.comm

/-- The variant of the spec's flag-definition example. -/
def witVariant8 : Variant :=
  { flags := [([97], [49]), ([98], [50])], shaders := [], sourcePath := [] }

/-- The Pass of the spec's flag-definition example. -/
def witPass8 : Pass :=
  { Pass.init with default_variant := [([97], [48])], variants := [witVariant8] }

/-- C8 witness: on the spec's example — `default_variant = {a: 0}` and
one variant with `flags = {a: 1, b: 2}` — the characterization applies
at key `a`, value `1`, and the definitions dict evaluates to exactly
`{a: {0, 1}, b: {2}}`. -/
theorem c8_get_flag_definitions_witness :
    (MemDef witPass8.get_flag_definitions [97] [49] ↔
      (([97], [49]) ∈ witPass8.default_variant ∨
        ∃ w ∈ witPass8.variants, (([97] : Str), ([49] : Str)) ∈ w.flags)) ∧
    witPass8.get_flag_definitions = [([97], {[48], [49]}), ([98], {[50]})] := by
  constructor
  · exact c8_get_flag_definitions witPass8 (by decide) [97] [49]
  · decide
